import Mathlib

/-!
# rupaul: `drag` command (cmd/root.go)

A shallow embedding of `Drag`, `Fatalf` and `getSecretData` from `cmd/root.go`.

* Go strings are Lean `String`s; `[]byte(s)` is the same byte sequence.
* A Go `map[string]T` is an association list with pairwise distinct keys
  (`keysDistinct`); `len` is its length, indexing is `mapGet`, assignment is
  `mapSet`.  The order in which `range` visits a map is chosen by the
  environment (`World.rangeOrder`).
* `interface{}` values held in a secret are what the JSON decoder of the Vault
  client produces: `nil`, `bool`, `json.Number`, `string`, `[]interface{}` and
  `map[string]interface{}`.
* Every call that leaves the program (file system, YAML library, Vault client,
  token helper, environment variables) is answered by a `World`; the calls are
  recorded in a trace.
* A run ends in one of three ways: `Drag` returns (exit code 0), `Fatalf`
  calls `os.Exit(1)`, or the Go runtime panics.
-/

namespace RuPaul

/-! ## Go maps -/

/-- Map index expression `m[k]` in its two-result form `v, ok := m[k]`. -/
def mapGet {α : Type} : List (String × α) → String → Option α
  | [], _ => none
  | (k', v) :: m, k => if k' = k then some v else mapGet m k

/-- Map assignment `m[k] = v`. -/
def mapSet {α : Type} : List (String × α) → String → α → List (String × α)
  | [], k, v => [(k, v)]
  | (k', v') :: m, k, v => if k' = k then (k, v) :: m else (k', v') :: mapSet m k v

/-- The keys of a map. -/
def mapKeys {α : Type} (m : List (String × α)) : List String := m.map Prod.fst

/-- Go maps hold each key at most once. -/
def keysDistinct {α : Type} (m : List (String × α)) : Prop := (mapKeys m).Nodup

/-! ## Values of type `interface{}` in a decoded secret -/

/-- The dynamic values a decoded Vault response can hold. -/
inductive Value where
  | null
  | bool (b : Bool)
  | number (digits : String)
  | str (s : String)
  | list (xs : List Value)
  | map (m : List (String × Value))

/-- The kinds of `reflect.Kind` that occur for decoded values. -/
inductive Kind where
  | Bool
  | String
  | Slice
  | Map
  deriving DecidableEq, Repr

/-- The expression `reflect.TypeOf(v).Kind()`: `reflect.TypeOf` of a nil interface is the nil
`Type`, and calling `Kind` on it is a nil dereference (`none`).  `json.Number` is a string
type, so its kind is `String`. -/
def typeKind : Value → Option Kind
  | .null => none
  | .bool _ => some Kind.Bool
  | .number _ => some Kind.String
  | .str _ => some Kind.String
  | .list _ => some Kind.Slice
  | .map _ => some Kind.Map

/-- The type `*vaultapi.Secret` restricted to the field the program reads. -/
structure Secret where
  Data : List (String × Value)

/-- How a run stops early: `os.Exit(1)` inside `Fatalf`, or a runtime panic. -/
inductive Halt where
  | exit1
  | panic
  deriving DecidableEq, Repr

/-- The function `getSecretData`.  The argument is a pointer, `none` is the nil pointer. -/
def getSecretData (secret : Option Secret) : Except Halt (List (String × Value)) :=
  match secret with
  | none => .error Halt.panic
  | some sec =>
    match mapGet sec.Data "metadata" with
    | none => .ok sec.Data
    | some metadata =>
      match mapGet sec.Data "data" with
      | none => .ok sec.Data
      | some data =>
        if sec.Data.length = 2 then
          match typeKind metadata with
          | none => .error Halt.panic
          | some km =>
            if km = Kind.Map then
              match typeKind data with
              | none => .error Halt.panic
              | some kd =>
                if kd = Kind.Map then
                  match data with
                  | .map m => .ok m
                  | _ => .error Halt.panic
                else .ok sec.Data
            else .ok sec.Data
        else .ok sec.Data

/-! ## The manifest (fields of `v1alpha1.Application` that `Drag` reads) -/

/-- An environment entry of the manifest. -/
structure EnvVar where
  Name : String
  Value : String

/-- A mount: path in the secret store and local destination. -/
structure SecretPath where
  MountPath : String
  KvPath : String

/-- The secret-store section of the manifest. -/
structure Vault where
  Enabled : Bool
  Mounts : List SecretPath

/-- The `Spec` of the manifest. -/
structure ApplicationSpec where
  Port : Int
  Vault : Vault
  Env : List EnvVar

/-- The manifest. -/
structure Application where
  Name : String
  Spec : ApplicationSpec

/-! ## The compose descriptor -/

/-- The type `DockerComposeService`. -/
structure DockerComposeService where
  Build : String
  Image : String
  Volumes : List String
  Ports : List String
  Environment : List (String × String)

/-- The type `DockerComposeSpec`. -/
structure DockerComposeSpec where
  Version : String
  Services : List (String × DockerComposeService)

/-- The function `strconv.Itoa`: decimal rendering of an integer. -/
def Itoa (i : Int) : String :=
  if i < 0 then "-" ++ Nat.repr (-i).toNat else Nat.repr i.toNat

/-- Lines 84-108 of `Drag`: the service built from the manifest. -/
def buildService (app : Application) : DockerComposeService :=
  let service : DockerComposeService :=
    { Build := ".", Image := app.Name, Environment := [], Ports := [], Volumes := [] }
  let service :=
    if app.Spec.Port > 0 then
      let port := Itoa app.Spec.Port
      { service with Ports := service.Ports ++ [port ++ ":" ++ port] }
    else service
  let service :=
    if app.Spec.Vault.Enabled then
      { service with Volumes := service.Volumes ++ ["$\x7bPWD\x7d/secrets:/secrets"] }
    else service
  app.Spec.Env.foldl
    (fun svc entry => { svc with Environment := mapSet svc.Environment entry.Name entry.Value })
    service

/-- Lines 97-110 of `Drag`: the descriptor holding the service under the application name. -/
def buildSpec (app : Application) : DockerComposeSpec :=
  { Version := "3", Services := mapSet [] app.Name (buildService app) }

/-! ## Paths (`path/filepath` on Unix, separator `/`) -/

/-- Split a path at every separator. -/
def splitSlash : List Char → List (List Char)
  | [] => [[]]
  | c :: cs =>
    if c = '/' then [] :: splitSlash cs
    else
      match splitSlash cs with
      | [] => [[c]]
      | x :: xs => (c :: x) :: xs

/-- Join path elements with the separator. -/
def joinSlash : List (List Char) → List Char
  | [] => []
  | [x] => x
  | x :: y :: rest => x ++ '/' :: joinSlash (y :: rest)

/-- One element of the lexical clean-up: empty and `.` elements vanish, `..` removes the
element before it, is dropped at the root, and is kept at the start of a relative path.  The
stack holds the elements kept so far, last one first. -/
def cleanStep (rooted : Bool) (stack : List (List Char)) (comp : List Char) :
    List (List Char) :=
  if comp = [] ∨ comp = ['.'] then stack
  else if comp = ['.', '.'] then
    match stack with
    | [] => if rooted then [] else [comp]
    | top :: below => if top = ['.', '.'] then comp :: stack else below
  else comp :: stack

/-- The function `filepath.Clean`. -/
def Clean (path : String) : String :=
  if path = "" then "."
  else
    let rooted := path.data.head? = some '/'
    let out := joinSlash ((splitSlash path.data).foldl (cleanStep rooted) []).reverse
    if rooted then String.mk ('/' :: out)
    else if out = [] then "." else String.mk out

/-- The function `filepath.Join` for two elements: empty leading elements are ignored and the
result is cleaned. -/
def Join (a b : String) : String :=
  if a ≠ "" then Clean (a ++ "/" ++ b)
  else if b ≠ "" then Clean b
  else ""

/-- The function `filepath.FromSlash`: the separator is already `/`. -/
def FromSlash (path : String) : String := path

/-! ## The file system -/

/-- Directories and regular files, by cleaned path.  The working directory `.`, the
directories above it and the root `/` always exist. -/
structure FS where
  dirs : List String
  files : List (String × String)

/-- The path climbs from the working directory only: `..`, `../..`, and so on. -/
def onlyDotDot (p : String) : Bool :=
  (splitSlash p.data).all fun c => decide (c = ['.', '.'])

/-- The path is a directory. -/
def FS.isDir (fs : FS) (p : String) : Bool :=
  decide (p = "." ∨ p = "/" ∨ onlyDotDot p = true ∨ p ∈ fs.dirs)

/-- The path is a regular file. -/
def FS.isFile (fs : FS) (p : String) : Bool :=
  (mapGet fs.files p).isSome

/-- Contents of the regular file at `p`. -/
def FS.readFile (fs : FS) (p : String) : Option String :=
  mapGet fs.files p

/-- All non-empty proper initial segments of a list. -/
def properInits {α : Type} : List α → List (List α)
  | [] => []
  | [_] => []
  | x :: y :: rest => [x] :: (properInits (y :: rest)).map (fun l => x :: l)

/-- The directories above a cleaned path, outermost first (the root and the working
directory are left out). -/
def ancestors (p : String) : List String :=
  (properInits (splitSlash p.data)).filterMap fun cs =>
    let d := joinSlash cs
    if d = [] then none else some (String.mk d)

/-! ## Trace and state of a run -/

/-- Calls that leave the program, in the order they are made. -/
inductive Event where
  | log (format : String) (args : List Value)
  | errorLine (message : String) (args : List Value)
  | readFile (path : String)
  | mkdirAll (path : String)
  | writeFile (path : String) (data : String)
  | rawRequest (method : String) (url : String)
  | helperGet
  | lookupSelf (token : String)
  | read (kvPath : String)

/-- The file system and the calls made so far. -/
structure Sys where
  fs : FS
  trace : List Event

/-- Record a call. -/
def Sys.emit (s : Sys) (e : Event) : Sys :=
  { s with trace := s.trace ++ [e] }

/-- Number of calls made so far; the environment may answer differently at different times. -/
def Sys.now (s : Sys) : Nat := s.trace.length

/-- Answers of everything outside the program.  A Go `error` is `Option String`. -/
structure World where
  ReadFile : String → Except String String
  Unmarshal : String → Except String Application
  Marshal : DockerComposeSpec → String × Option String
  mkdirFault : Nat → String → Option String
  writeFault : Nat → String → Option String
  NewClient : Option String
  RawRequest : Option String
  Getenv : String → String
  helperGet : String × Option String
  LookupSelf : String → Option Secret × Option String
  TokenPolicies : Option Secret → Except String (List String)
  Read : Nat → String → Option Secret × Option String
  rangeOrder : Nat → List (String × Value) → List (String × Value)

/-- A `range` over a map visits every entry exactly once. -/
def World.rangeFair (w : World) : Prop :=
  ∀ t m, (w.rangeOrder t m).Perm m

/-- The function `os.MkdirAll`: creates the directory and the missing ones above it; fails when
the environment refuses or when a regular file is in the way. -/
def MkdirAll (w : World) (s : Sys) (path : String) : Sys × Option String :=
  let s1 := s.emit (.mkdirAll path)
  match w.mkdirFault s.now path with
  | some e => (s1, some e)
  | none =>
    let chain := ancestors path ++ [path]
    if chain.any s.fs.isFile then (s1, some ("mkdir " ++ path ++ ": not a directory"))
    else
      ({ s1 with fs := { s1.fs with dirs := s1.fs.dirs ++ chain.filter fun d => !s.fs.isDir d } },
        none)

/-- The function `ioutil.WriteFile`: creates or truncates the file and writes `data`; fails when
the environment refuses, when the path is a directory, or when the directory above is missing. -/
def WriteFile (w : World) (s : Sys) (filename : String) (data : String) : Sys × Option String :=
  let s1 := s.emit (.writeFile filename data)
  match w.writeFault s.now filename with
  | some e => (s1, some e)
  | none =>
    if s.fs.isDir filename then (s1, some ("open " ++ filename ++ ": is a directory"))
    else if ((ancestors filename).getLast?.map s.fs.isDir).getD true then
      ({ s1 with fs := { s1.fs with files := mapSet s1.fs.files filename data } }, none)
    else (s1, some ("open " ++ filename ++ ": no such file or directory"))

/-! ## The command -/

/-- A run either goes on with a value or halts with the state it halted in. -/
abbrev Run (α : Type) := Except (Halt × Sys) α

/-- The function `Fatalf`: print the error line, then `os.Exit(1)`. -/
def Fatalf {α : Type} (s : Sys) (message : String) (args : List Value) : Run α :=
  .error (Halt.exit1, s.emit (.errorLine message args))

/-- Lines 70-82: read and decode the manifest. -/
def loadManifest (w : World) (s : Sys) (filename : String) : Run (Sys × Application) :=
  let s := s.emit (.readFile filename)
  match w.ReadFile filename with
  | .error e => Fatalf s e []
  | .ok data =>
    match w.Unmarshal data with
    | .error e => Fatalf s "error: %v" [.str e]
    | .ok app => .ok (s, app)

/-- Lines 84-119: build the descriptor, serialise it and write `docker-compose.yml`.  The
results of `yaml.Marshal` (its error), `os.MkdirAll` and `ioutil.WriteFile` are not looked at. -/
def writeCompose (w : World) (s : Sys) (app : Application) : Sys :=
  let spec := buildSpec app
  let d := (w.Marshal spec).1
  let outputDir := "."
  let s := (MkdirAll w s outputDir).1
  let dockerComposePath := Join outputDir "docker-compose.yml"
  let s := (WriteFile w s dockerComposePath d).1
  s.emit (.log "Generated %s" [.str dockerComposePath])

/-- Lines 121-140: the client and the reachability probe.  `url.Parse` accepts the constant
address, so its `Fatalf` is never reached.  The source discards the error result of
`vaultapi.NewClient` (`c, _ :=`): when the constructor fails `c` is the nil pointer, and
`c.RawRequest` dereferences it before any request is sent. -/
def connect (w : World) (s : Sys) : Run Sys :=
  let vaultBaseUrl := "https://vault.adeo.no"
  let s := s.emit (.log "Fetching secrets from Vault (%s)" [.str vaultBaseUrl])
  match w.NewClient with
  | some _ => .error (Halt.panic, s)
  | none =>
    let s := s.emit (.rawRequest "GET" vaultBaseUrl)
    match w.RawRequest with
    | some e => Fatalf s "Could not connect to Vault - network problem? %s" [.str e]
    | none => .ok s

/-- Lines 142-153: the token from the environment variable, else from the token helper. -/
def resolveToken (w : World) (s : Sys) : Run (Sys × String) :=
  let vaultToken := w.Getenv "VAULT_TOKEN"
  if vaultToken.length = 0 then
    let s := s.emit .helperGet
    let (vaultToken, err) := w.helperGet
    if vaultToken.length = 0 then
      Fatalf s
        "Looks like you're not logged in to vault. Run \"vault login -method=oidc\" to login." []
    else
      match err with
      | some e => Fatalf s "Could not get Vault token, %s" [.str e]
      | none => .ok (s, vaultToken)
  else .ok (s, vaultToken)

/-- Lines 161-169: report the display name when it is a string. -/
def displayLoop : Sys → List (String × Value) → Sys
  | s, [] => s
  | s, (k, v) :: rest =>
    if k = "display_name" then
      match v with
      | .str _ => displayLoop (s.emit (.log "Logged in as %s" [v])) rest
      | _ => displayLoop s rest
    else displayLoop s rest

/-- Lines 155-176: self-lookup of the token and its policies. -/
def verifyToken (w : World) (s : Sys) (vaultToken : String) : Run Sys :=
  let s := s.emit (.lookupSelf vaultToken)
  match w.LookupSelf vaultToken with
  | (_, some e) =>
    Fatalf s
      "Could not verify the validity of the Vault token - it may be invalid or expired. %s"
      [.str e]
  | (tokenMeta, none) =>
    match tokenMeta with
    | none => .error (Halt.panic, s)
    | some tm =>
      let s := displayLoop s (w.rangeOrder s.now tm.Data)
      match w.TokenPolicies tokenMeta with
      | .error e => Fatalf s e []
      | .ok policies =>
        .ok (s.emit (.log "The Vault token has policies %s" [.str (", ".intercalate policies)]))

/-- The local directory of a mount, line 189. -/
def destDirOf (entry : SecretPath) : String :=
  Join "." (FromSlash entry.MountPath)

/-- Lines 188-198: the `case string` branch for key `k` with value `val`. -/
def writeSecret (w : World) (entry : SecretPath) (s : Sys) (k : String) (val : String) :
    Run Sys :=
  let s := s.emit (.log "Found secret %s/%s" [.str entry.KvPath, .str k])
  let destDir := destDirOf entry
  match MkdirAll w s destDir with
  | (s, some e) => Fatalf s "Could not make directory %s: %s" [.str destDir, .str e]
  | (s, none) =>
    let filename := Join destDir k
    match WriteFile w s filename val with
    | (s, some e) => Fatalf s "Could not write secret to %s: %s" [.str filename, .str e]
    | (s, none) => .ok s

/-- Lines 185-202: the loop over the effective payload, in the order the entries are visited. -/
def keyLoop (w : World) (entry : SecretPath) : Sys → List (String × Value) → Run Sys
  | s, [] => .ok s
  | s, (k, v) :: rest =>
    match v with
    | .str val =>
      match writeSecret w entry s k val with
      | .error h => .error h
      | .ok s => keyLoop w entry s rest
    | _ => Fatalf s "Secret %s has invalid type" [.str k, v]

/-- Lines 179-180: announce the mount and read its secret; the two results of
`c.Logical().Read` come with the state after the call. -/
def readMount (w : World) (s : Sys) (entry : SecretPath) :
    Sys × (Option Secret × Option String) :=
  let s := s.emit (.log "Reading secret from Vault: %s" [.str entry.KvPath])
  let s := s.emit (.read entry.KvPath)
  (s, w.Read s.now entry.KvPath)

/-- Lines 179-202: one mount. -/
def processMount (w : World) (s : Sys) (entry : SecretPath) : Run Sys :=
  match readMount w s entry with
  | (s, (_, some e)) => Fatalf s e []
  | (s, (secret, none)) =>
    match getSecretData secret with
    | .error h => .error (h, s)
    | .ok data => keyLoop w entry s (w.rangeOrder s.now data)

/-- Lines 178-203: all mounts, in manifest order. -/
def mountLoop (w : World) : Sys → List SecretPath → Run Sys
  | s, [] => .ok s
  | s, entry :: rest =>
    match processMount w s entry with
    | .error h => .error h
    | .ok s => mountLoop w s rest

/-- Lines 70-176: everything `Drag` does before the loop over the mounts, started on file
system `fs` with `args[0] = filename` (the command requires at least one argument). -/
def beforeMounts (w : World) (fs : FS) (filename : String) : Run (Sys × Application) :=
  match loadManifest w ⟨fs, []⟩ filename with
  | .error h => .error h
  | .ok (s, app) =>
    let s := writeCompose w s app
    match connect w s with
    | .error h => .error h
    | .ok s =>
      match resolveToken w s with
      | .error h => .error h
      | .ok (s, vaultToken) =>
        match verifyToken w s vaultToken with
        | .error h => .error h
        | .ok s => .ok (s, app)

/-- The function `Drag`. -/
def Drag (w : World) (fs : FS) (filename : String) : Run Sys :=
  match beforeMounts w fs filename with
  | .error h => .error h
  | .ok (s, app) => mountLoop w s app.Spec.Vault.Mounts

/-- How the process ends. -/
inductive Outcome where
  | exit0
  | exit1
  | panic
  deriving DecidableEq, Repr

/-- The way a run of `Drag` ends. -/
def outcome : Run Sys → Outcome
  | .ok _ => Outcome.exit0
  | .error (Halt.exit1, _) => Outcome.exit1
  | .error (Halt.panic, _) => Outcome.panic

/-- The state a run ends in. -/
def finalSys : Run Sys → Sys
  | .ok s => s
  | .error (_, s) => s

/-- The secret reads in a trace. -/
def readsOf (tr : List Event) : List String :=
  tr.filterMap fun e => match e with
    | .read p => some p
    | _ => none

/-- The file writes in a trace. -/
def writesOf (tr : List Event) : List (String × String) :=
  tr.filterMap fun e => match e with
    | .writeFile p d => some (p, d)
    | _ => none

/-- The value is a Go `string`. -/
def isStr : Value → Bool
  | .str _ => true
  | _ => false

/-- The files the `case string` branch writes for the given entries of a mount, in order. -/
def plannedWrites (entry : SecretPath) (visited : List (String × Value)) :
    List (String × String) :=
  visited.filterMap fun kv =>
    match kv.2 with
    | .str val => some (Join (destDirOf entry) kv.1, val)
    | _ => none

/-! ## Lemmas on maps -/

theorem mapGet_mapSet {α : Type} (m : List (String × α)) (k : String) (v : α) (n : String) :
    mapGet (mapSet m k v) n = if k = n then some v else mapGet m n := by
  induction m with
  | nil => simp [mapSet, mapGet]
  | cons kv m ih =>
    obtain ⟨k', v'⟩ := kv
    by_cases h : k' = k
    · subst h
      by_cases hn : k' = n <;> simp [mapSet, mapGet, hn]
    · by_cases hn : k' = n
      · subst hn
        have hk : ¬ k = k' := fun e => h e.symm
        simp [mapSet, mapGet, h, hk]
      · simp [mapSet, mapGet, h, hn, ih]

theorem mapKeys_mapSet {α : Type} (m : List (String × α)) (k : String) (v : α) (n : String) :
    n ∈ mapKeys (mapSet m k v) ↔ n = k ∨ n ∈ mapKeys m := by
  induction m with
  | nil => simp [mapSet, mapKeys]
  | cons kv m ih =>
    obtain ⟨k', v'⟩ := kv
    by_cases h : k' = k
    · subst h
      simp [mapSet, mapKeys]
    · have ih' : n ∈ List.map Prod.fst (mapSet m k v) ↔ n = k ∨ n ∈ List.map Prod.fst m := ih
      simp only [mapSet, h, if_false, mapKeys, List.map_cons, List.mem_cons, ih']
      tauto

theorem keysDistinct_mapSet {α : Type} (m : List (String × α)) (k : String) (v : α)
    (h : keysDistinct m) : keysDistinct (mapSet m k v) := by
  induction m with
  | nil => simp [mapSet, keysDistinct, mapKeys]
  | cons kv m ih =>
    obtain ⟨k', v'⟩ := kv
    have hc : k' ∉ mapKeys m ∧ keysDistinct m := by
      simpa [keysDistinct, mapKeys] using h
    by_cases hk : k' = k
    · subst hk
      simpa [mapSet, keysDistinct, mapKeys] using h
    · have hmem : k' ∉ mapKeys (mapSet m k v) := by
        rw [mapKeys_mapSet]
        rintro (e | e)
        · exact hk e
        · exact hc.1 e
      have ih' := ih hc.2
      simp only [mapSet, hk, if_false, keysDistinct, mapKeys, List.map_cons, List.nodup_cons]
      exact ⟨hmem, ih'⟩

theorem length_mapSet_of_not_mem {α : Type} (m : List (String × α)) (k : String) (v : α)
    (h : k ∉ mapKeys m) : (mapSet m k v).length = m.length + 1 := by
  induction m with
  | nil => simp [mapSet]
  | cons kv m ih =>
    obtain ⟨k', v'⟩ := kv
    have hc : ¬ k = k' ∧ k ∉ mapKeys m := by simpa [mapKeys] using h
    have hk : ¬ k' = k := fun e => hc.1 e.symm
    simp [mapSet, hk, ih hc.2]

/-- A map with distinct keys whose key set is `{a, b}`, `a ≠ b`, has two entries. -/
theorem length_eq_two_of_keys {α : Type} (m : List (String × α)) (a b : String) (hab : a ≠ b)
    (hd : keysDistinct m) (hk : ∀ k, k ∈ mapKeys m ↔ k = a ∨ k = b) : m.length = 2 := by
  have hp : (mapKeys m).Perm [a, b] := by
    rw [List.perm_ext_iff_of_nodup hd (by simp [hab])]
    intro k
    simp [hk k]
  have := hp.length_eq
  simpa [mapKeys] using this

/-! ## Lemmas on the compose descriptor -/

/-- The environment loop of lines 106-108 on its own. -/
def envLoop (m : List (String × String)) (entries : List EnvVar) : List (String × String) :=
  entries.foldl (fun m entry => mapSet m entry.Name entry.Value) m

theorem foldl_env_fields (entries : List EnvVar) (svc : DockerComposeService) :
    let r := entries.foldl
      (fun svc entry =>
        { svc with Environment := mapSet svc.Environment entry.Name entry.Value }) svc
    r.Ports = svc.Ports ∧ r.Volumes = svc.Volumes ∧
      r.Environment = envLoop svc.Environment entries := by
  induction entries generalizing svc with
  | nil => simp [envLoop]
  | cons e es ih =>
    have := ih { svc with Environment := mapSet svc.Environment e.Name e.Value }
    simpa [envLoop] using this

theorem buildService_Ports (app : Application) :
    (buildService app).Ports =
      if app.Spec.Port > 0 then [Itoa app.Spec.Port ++ ":" ++ Itoa app.Spec.Port] else [] := by
  unfold buildService
  simp only []
  rw [(foldl_env_fields _ _).1]
  by_cases hp : app.Spec.Port > 0 <;> by_cases hv : app.Spec.Vault.Enabled = true <;>
    simp [hp, hv]

theorem buildService_Volumes (app : Application) :
    (buildService app).Volumes =
      if app.Spec.Vault.Enabled then ["$\x7bPWD\x7d/secrets:/secrets"] else [] := by
  unfold buildService
  simp only []
  rw [(foldl_env_fields _ _).2.1]
  by_cases hp : app.Spec.Port > 0 <;> by_cases hv : app.Spec.Vault.Enabled = true <;>
    simp [hp, hv]

theorem buildService_Environment (app : Application) :
    (buildService app).Environment = envLoop [] app.Spec.Env := by
  unfold buildService
  simp only []
  rw [(foldl_env_fields _ _).2.2]
  by_cases hp : app.Spec.Port > 0 <;> by_cases hv : app.Spec.Vault.Enabled = true <;>
    simp [hp, hv]

/-- The last entry of the list that carries the name `n`. -/
def lastEntry (entries : List EnvVar) (n : String) : Option EnvVar :=
  entries.reverse.find? fun e => decide (e.Name = n)

theorem mapGet_envLoop (entries : List EnvVar) (m : List (String × String)) (n : String) :
    mapGet (envLoop m entries) n =
      match lastEntry entries n with
      | some e => some e.Value
      | none => mapGet m n := by
  induction entries generalizing m with
  | nil => simp [envLoop, lastEntry]
  | cons e es ih =>
    have h := ih (mapSet m e.Name e.Value)
    have hstep : envLoop m (e :: es) = envLoop (mapSet m e.Name e.Value) es := by
      simp [envLoop]
    rw [hstep, h]
    have hl : lastEntry (e :: es) n =
        match lastEntry es n with
        | some e' => some e'
        | none => if e.Name = n then some e else none := by
      simp only [lastEntry, List.reverse_cons, List.find?_append]
      cases List.find? (fun e => decide (e.Name = n)) es.reverse with
      | some e' => simp
      | none => by_cases hn : e.Name = n <;> simp [List.find?, hn]
    rw [hl]
    cases lastEntry es n with
    | some e' => simp
    | none =>
      by_cases hn : e.Name = n <;> simp [hn, mapGet_mapSet]

theorem mapKeys_envLoop (entries : List EnvVar) (m : List (String × String)) (n : String) :
    n ∈ mapKeys (envLoop m entries) ↔ n ∈ mapKeys m ∨ ∃ e ∈ entries, e.Name = n := by
  induction entries generalizing m with
  | nil => simp [envLoop]
  | cons e es ih =>
    have hstep : envLoop m (e :: es) = envLoop (mapSet m e.Name e.Value) es := by
      simp [envLoop]
    rw [hstep, ih, mapKeys_mapSet]
    constructor
    · rintro ((h | h) | ⟨e', he', h⟩)
      · exact Or.inr ⟨e, by simp, h.symm⟩
      · exact Or.inl h
      · exact Or.inr ⟨e', by simp [he'], h⟩
    · rintro (h | ⟨e', he', h⟩)
      · exact Or.inl (Or.inr h)
      · rcases List.mem_cons.1 he' with rfl | he''
        · exact Or.inl (Or.inl h.symm)
        · exact Or.inr ⟨e', he'', h⟩

theorem keysDistinct_envLoop (entries : List EnvVar) (m : List (String × String))
    (h : keysDistinct m) : keysDistinct (envLoop m entries) := by
  induction entries generalizing m with
  | nil => simpa [envLoop] using h
  | cons e es ih =>
    have hstep : envLoop m (e :: es) = envLoop (mapSet m e.Name e.Value) es := by
      simp [envLoop]
    rw [hstep]
    exact ih _ (keysDistinct_mapSet m _ _ h)

theorem length_envLoop_of_nodup (entries : List EnvVar) (m : List (String × String))
    (hn : (entries.map EnvVar.Name).Nodup) (hm : ∀ e ∈ entries, e.Name ∉ mapKeys m) :
    (envLoop m entries).length = m.length + entries.length := by
  induction entries generalizing m with
  | nil => simp [envLoop]
  | cons e es ih =>
    have hstep : envLoop m (e :: es) = envLoop (mapSet m e.Name e.Value) es := by
      simp [envLoop]
    have hn' : e.Name ∉ es.map EnvVar.Name ∧ (es.map EnvVar.Name).Nodup := by
      simpa using hn
    have he : e.Name ∉ mapKeys m := hm e (by simp)
    rw [hstep, ih _ hn'.2, length_mapSet_of_not_mem m _ _ he]
    · simp; omega
    · intro e' he' hmem
      rw [mapKeys_mapSet] at hmem
      rcases hmem with h | h
      · exact hn'.1 (List.mem_map.2 ⟨e', he', h⟩)
      · exact hm e' (by simp [he']) h

theorem Itoa_natCast (n : Nat) : Itoa (n : Int) = Nat.repr n := by
  have h : ¬ ((n : Int) < 0) := by omega
  simp [Itoa, h]

/-! ## Sample inputs -/

/-- A manifest with a port, Vault enabled, one mount and two environment entries. -/
def sampleApp : Application :=
  { Name := "myapp"
    Spec :=
      { Port := 8080
        Vault := { Enabled := true, Mounts := [⟨"secrets/db", "kv/preprod/fss/myapp/default"⟩] }
        Env := [⟨"A", "1"⟩, ⟨"B", "2"⟩] } }

/-- A manifest without port, Vault integration or environment. -/
def bareApp : Application :=
  { Name := "bare", Spec := { Port := 0, Vault := { Enabled := false, Mounts := [] }, Env := [] } }

/-- A versioned (kv version 2) response: the secret wrapped under `data`. -/
def wrappedSecret : Secret :=
  ⟨[("metadata", .map [("version", .number "1")]), ("data", .map [("x", .str "1")])]⟩

/-! ## Shape disambiguation -/

/-- C1: a payload with exactly the two keys `metadata` and `data`, both holding mappings, yields
the mapping stored under `data`. -/
theorem getSecretData_wrapped (sec : Secret) (md d : List (String × Value))
    (hdist : keysDistinct sec.Data)
    (hkeys : ∀ k, k ∈ mapKeys sec.Data ↔ k = "metadata" ∨ k = "data")
    (hmd : mapGet sec.Data "metadata" = some (.map md))
    (hd : mapGet sec.Data "data" = some (.map d)) :
    getSecretData (some sec) = .ok d := by
  have hlen : sec.Data.length = 2 :=
    length_eq_two_of_keys sec.Data "metadata" "data" (by decide) hdist hkeys
  simp [getSecretData, hmd, hd, hlen, typeKind]

theorem getSecretData_wrapped_witness :
    getSecretData (some wrappedSecret) = .ok [("x", .str "1")] :=
  getSecretData_wrapped wrappedSecret [("version", .number "1")] [("x", .str "1")]
    (by simp [keysDistinct, mapKeys, wrappedSecret])
    (by intro k; simp [wrappedSecret, mapKeys]) rfl rfl

/-! ## Compose descriptor -/

/-- C7: the port list is empty for port 0 and is the single mapping `N:N`, with `N` in
decimal, for a port `N > 0`. -/
theorem buildService_ports (app : Application) :
    (app.Spec.Port = 0 → (buildService app).Ports = []) ∧
    (∀ n : Nat, 0 < n → app.Spec.Port = (n : Int) →
      (buildService app).Ports = [Nat.repr n ++ ":" ++ Nat.repr n]) := by
  refine ⟨fun h => ?_, fun n hn h => ?_⟩
  · simp [buildService_Ports, h]
  · have hp : app.Spec.Port > 0 := by omega
    rw [buildService_Ports, if_pos hp, h, Itoa_natCast]

theorem buildService_ports_witness :
    (buildService bareApp).Ports = [] ∧ (buildService sampleApp).Ports = ["8080:8080"] :=
  ⟨(buildService_ports bareApp).1 rfl,
    (buildService_ports sampleApp).2 8080 (by decide) rfl⟩

/-- C8: with Vault enabled the volume list holds the secrets mount exactly once, with Vault
disabled the list is empty, and the mounts of the manifest play no part. -/
theorem buildService_volumes (app : Application) :
    (app.Spec.Vault.Enabled = true →
      (buildService app).Volumes.count "$\x7bPWD\x7d/secrets:/secrets" = 1) ∧
    (app.Spec.Vault.Enabled = false →
      (buildService app).Volumes = [] ∧
        "$\x7bPWD\x7d/secrets:/secrets" ∉ (buildService app).Volumes) ∧
    (∀ mounts : List SecretPath,
      (buildService
        { app with Spec := { app.Spec with Vault := { app.Spec.Vault with Mounts := mounts } } }
        ).Volumes = (buildService app).Volumes) := by
  refine ⟨fun h => ?_, fun h => ?_, fun mounts => ?_⟩
  · simp [buildService_Volumes, h]
  · simp [buildService_Volumes, h]
  · simp [buildService_Volumes]

theorem buildService_volumes_witness :
    (buildService sampleApp).Volumes.count "$\x7bPWD\x7d/secrets:/secrets" = 1 ∧
      (buildService bareApp).Volumes = [] :=
  ⟨(buildService_volumes sampleApp).1 rfl, ((buildService_volumes bareApp).2.1 rfl).1⟩

/-- C9: the environment mapping has exactly the names of the entries as keys, each name mapped
to the value of the last entry carrying it; with pairwise distinct names there is one mapping
entry per list entry, holding that entry's value. -/
theorem buildService_environment (app : Application) :
    keysDistinct (buildService app).Environment ∧
    (∀ n, n ∈ mapKeys (buildService app).Environment ↔ ∃ e ∈ app.Spec.Env, e.Name = n) ∧
    (∀ before e after, app.Spec.Env = before ++ e :: after →
      (∀ later ∈ after, later.Name ≠ e.Name) →
      mapGet (buildService app).Environment e.Name = some e.Value) ∧
    ((app.Spec.Env.map EnvVar.Name).Nodup →
      (buildService app).Environment.length = app.Spec.Env.length ∧
      ∀ e ∈ app.Spec.Env, mapGet (buildService app).Environment e.Name = some e.Value) := by
  rw [buildService_Environment]
  have hlast : ∀ before e after, app.Spec.Env = before ++ e :: after →
      (∀ later ∈ after, later.Name ≠ e.Name) →
      mapGet (envLoop [] app.Spec.Env) e.Name = some e.Value := by
    intro before e after hsplit hlater
    rw [mapGet_envLoop]
    have hnone : List.find? (fun x => decide (x.Name = e.Name)) after.reverse = none := by
      rw [List.find?_eq_none]
      intro x hx
      simpa using hlater x (List.mem_reverse.1 hx)
    have : lastEntry app.Spec.Env e.Name = some e := by
      simp [lastEntry, hsplit, List.find?_append, hnone, List.find?]
    rw [this]
  refine ⟨keysDistinct_envLoop _ _ (by simp [keysDistinct, mapKeys]), fun n => ?_, hlast,
    fun hn => ⟨?_, fun e he => ?_⟩⟩
  · rw [mapKeys_envLoop]
    simp [mapKeys]
  · rw [length_envLoop_of_nodup _ _ hn (by simp [mapKeys])]
    simp
  · obtain ⟨before, after, hsplit⟩ := List.append_of_mem he
    refine hlast before e after hsplit fun later hl heq => ?_
    rw [hsplit] at hn
    simp only [List.map_append, List.map_cons] at hn
    have h2 := (List.nodup_append.1 hn).2.1
    have h3 : e.Name ∉ after.map EnvVar.Name := (List.nodup_cons.1 h2).1
    exact h3 (List.mem_map.2 ⟨later, hl, heq⟩)

theorem buildService_environment_witness :
    (buildService sampleApp).Environment.length = 2 ∧
      mapGet (buildService sampleApp).Environment "A" = some "1" ∧
      mapGet (buildService sampleApp).Environment "B" = some "2" :=
  have h := (buildService_environment sampleApp).2.2.2 (by decide)
  ⟨h.1, h.2 ⟨"A", "1"⟩ (List.mem_cons_self _ _),
    h.2 ⟨"B", "2"⟩ (List.mem_cons_of_mem _ (List.mem_cons_self _ _))⟩

/-! ## Lemmas on the file system -/

theorem MkdirAll_trace (w : World) (s : Sys) (path : String) :
    (MkdirAll w s path).1.trace = s.trace ++ [Event.mkdirAll path] := by
  unfold MkdirAll
  simp only []
  split
  · rfl
  · split <;> rfl

theorem WriteFile_trace (w : World) (s : Sys) (filename data : String) :
    (WriteFile w s filename data).1.trace = s.trace ++ [Event.writeFile filename data] := by
  unfold WriteFile
  simp only []
  split
  · rfl
  · split
    · rfl
    · split <;> rfl

theorem MkdirAll_ok (w : World) (s s' : Sys) (path : String)
    (h : MkdirAll w s path = (s', none)) :
    s'.fs.isDir path = true ∧ (∀ a ∈ ancestors path, s'.fs.isDir a = true) ∧
      s'.fs.files = s.fs.files := by
  unfold MkdirAll at h
  simp only [] at h
  split at h
  · simp at h
  · split at h
    · simp at h
    · simp only [Prod.mk.injEq, and_true] at h
      subst h
      have hall : ∀ d ∈ ancestors path ++ [path],
          FS.isDir
            { dirs := (s.emit (.mkdirAll path)).fs.dirs ++
                (ancestors path ++ [path]).filter fun d => !s.fs.isDir d,
              files := (s.emit (.mkdirAll path)).fs.files } d = true := by
        intro d hd
        by_cases hold : s.fs.isDir d = true
        · simp only [FS.isDir, decide_eq_true_eq] at hold ⊢
          rcases hold with h1 | h1 | h1 | h1
          · exact Or.inl h1
          · exact Or.inr (Or.inl h1)
          · exact Or.inr (Or.inr (Or.inl h1))
          · exact Or.inr (Or.inr (Or.inr
              (List.mem_append_left _ (by simpa [Sys.emit] using h1))))
        · have hf : s.fs.isDir d = false := by simpa using hold
          have hmem : d ∈ (ancestors path ++ [path]).filter fun d => !s.fs.isDir d := by
            rw [List.mem_filter]
            exact ⟨hd, by rw [hf]; rfl⟩
          simp only [FS.isDir, decide_eq_true_eq]
          exact Or.inr (Or.inr (Or.inr (List.mem_append_right _ hmem)))
      exact ⟨hall path (by simp), fun a ha => hall a (by simp [ha]), rfl⟩

theorem WriteFile_ok (w : World) (s s' : Sys) (filename data : String)
    (h : WriteFile w s filename data = (s', none)) :
    s'.fs.readFile filename = some data ∧ s'.fs.dirs = s.fs.dirs := by
  unfold WriteFile at h
  simp only [] at h
  split at h
  · simp at h
  · split at h
    · simp at h
    · split at h
      · simp only [Prod.mk.injEq, and_true] at h
        subst h
        exact ⟨by simp [FS.readFile, mapGet_mapSet], rfl⟩
      · simp at h

/-! ## Lemmas on traces -/

@[simp] theorem emit_trace (s : Sys) (e : Event) : (s.emit e).trace = s.trace ++ [e] := rfl

@[simp] theorem readsOf_append (a b : List Event) : readsOf (a ++ b) = readsOf a ++ readsOf b := by
  simp [readsOf, List.filterMap_append]

@[simp] theorem writesOf_append (a b : List Event) :
    writesOf (a ++ b) = writesOf a ++ writesOf b := by
  simp [writesOf, List.filterMap_append]

theorem writeSecret_ok_trace (w : World) (entry : SecretPath) (s s' : Sys) (k v : String)
    (h : writeSecret w entry s k v = .ok s') :
    writesOf s'.trace = writesOf s.trace ++ [(Join (destDirOf entry) k, v)] ∧
      readsOf s'.trace = readsOf s.trace := by
  unfold writeSecret at h
  simp only [] at h
  split at h
  · simp [Fatalf] at h
  · rename_i s1 hmk
    split at h
    · simp [Fatalf] at h
    · rename_i s2 hwr
      have hs : s2 = s' := by simpa using h
      subst hs
      have h1 := MkdirAll_trace w (s.emit (.log "Found secret %s/%s" [.str entry.KvPath, .str k]))
        (destDirOf entry)
      rw [hmk] at h1
      have h2 := WriteFile_trace w s1 (Join (destDirOf entry) k) v
      rw [hwr] at h2
      simp only [] at h1 h2
      rw [h2, h1]
      simp [readsOf, writesOf]

theorem writeSecret_error_trace (w : World) (entry : SecretPath) (s s' : Sys) (k v : String)
    (hl : Halt) (h : writeSecret w entry s k v = .error (hl, s')) :
    hl = Halt.exit1 ∧ readsOf s'.trace = readsOf s.trace ∧
      ∃ n, n ≤ 1 ∧
        writesOf s'.trace = writesOf s.trace ++ [(Join (destDirOf entry) k, v)].take n := by
  unfold writeSecret at h
  simp only [] at h
  split at h
  · rename_i s1 e hmk
    have h1 := MkdirAll_trace w (s.emit (.log "Found secret %s/%s" [.str entry.KvPath, .str k]))
      (destDirOf entry)
    rw [hmk] at h1
    simp only [Fatalf, Except.error.injEq, Prod.mk.injEq] at h
    obtain ⟨hh, hs⟩ := h
    subst hs
    simp only [] at h1
    refine ⟨hh.symm, ?_, 0, by omega, ?_⟩
    · rw [emit_trace, h1]
      simp [readsOf]
    · rw [emit_trace, h1]
      simp [writesOf]
  · rename_i s1 hmk
    have h1 := MkdirAll_trace w (s.emit (.log "Found secret %s/%s" [.str entry.KvPath, .str k]))
      (destDirOf entry)
    rw [hmk] at h1
    split at h
    · rename_i s2 e hwr
      have h2 := WriteFile_trace w s1 (Join (destDirOf entry) k) v
      rw [hwr] at h2
      simp only [Fatalf, Except.error.injEq, Prod.mk.injEq] at h
      obtain ⟨hh, hs⟩ := h
      subst hs
      simp only [] at h1 h2
      refine ⟨hh.symm, ?_, 1, by omega, ?_⟩
      · rw [emit_trace, h2, h1]
        simp [readsOf]
      · rw [emit_trace, h2, h1]
        simp [writesOf]
    · simp at h

theorem plannedWrites_cons_str (entry : SecretPath) (k val : String)
    (l : List (String × Value)) :
    plannedWrites entry ((k, .str val) :: l) =
      (Join (destDirOf entry) k, val) :: plannedWrites entry l := by
  simp [plannedWrites]

/-- The loop over the entries of one mount: it never panics, performs no secret read, writes
only (an initial part of) the files of the string entries visited before the first other
entry, and is fatal as soon as there is such an entry. -/
theorem keyLoop_trace (w : World) (entry : SecretPath) (l : List (String × Value)) :
    ∀ s : Sys,
      outcome (keyLoop w entry s l) ≠ Outcome.panic ∧
      readsOf (finalSys (keyLoop w entry s l)).trace = readsOf s.trace ∧
      (∃ n, writesOf (finalSys (keyLoop w entry s l)).trace =
        writesOf s.trace ++
          (plannedWrites entry (l.takeWhile fun kv => isStr kv.2)).take n) ∧
      ((∃ kv ∈ l, isStr kv.2 = false) → outcome (keyLoop w entry s l) = Outcome.exit1) := by
  induction l with
  | nil =>
    intro s
    refine ⟨by simp [keyLoop, outcome], by simp [keyLoop, finalSys], ⟨0, by simp [keyLoop, finalSys]⟩,
      by simp⟩
  | cons kv rest ih =>
    intro s
    obtain ⟨k, v⟩ := kv
    by_cases hv : ∃ val, v = Value.str val
    · obtain ⟨val, rfl⟩ := hv
      cases hws : writeSecret w entry s k val with
      | error hs =>
        obtain ⟨hl, s'⟩ := hs
        obtain ⟨hh, hr, n, hle, hn⟩ := writeSecret_error_trace w entry s s' k val hl hws
        subst hh
        have hk : keyLoop w entry s ((k, .str val) :: rest) = .error (Halt.exit1, s') := by
          simp [keyLoop, hws]
        rw [hk]
        refine ⟨by simp [outcome], by simpa [finalSys] using hr, ⟨n, ?_⟩, fun _ => by simp [outcome]⟩
        simp only [finalSys, hn, List.takeWhile_cons, isStr, if_true, plannedWrites_cons_str]
        cases n with
        | zero => simp
        | succ m =>
          have hm : m = 0 := by omega
          simp [hm]
      | ok s' =>
        obtain ⟨hwr, hr⟩ := writeSecret_ok_trace w entry s s' k val hws
        have hk : keyLoop w entry s ((k, .str val) :: rest) = keyLoop w entry s' rest := by
          simp [keyLoop, hws]
        rw [hk]
        obtain ⟨i1, i2, ⟨n, hn⟩, i4⟩ := ih s'
        refine ⟨i1, by rw [i2, hr], ⟨n + 1, ?_⟩, ?_⟩
        · simp only [hn, hwr, List.takeWhile_cons, isStr, if_true, plannedWrites_cons_str,
            List.take_succ_cons]
          simp
        · rintro ⟨kv, hmem, hbad⟩
          rcases List.mem_cons.1 hmem with rfl | hmem'
          · simp [isStr] at hbad
          · exact i4 ⟨kv, hmem', hbad⟩
    · have hk : keyLoop w entry s ((k, v) :: rest) =
          Fatalf s "Secret %s has invalid type" [.str k, v] := by
        cases v with
        | str val => exact absurd ⟨val, rfl⟩ hv
        | _ => simp [keyLoop]
      have hf : isStr v = false := by
        cases v with
        | str val => exact absurd ⟨val, rfl⟩ hv
        | _ => rfl
      rw [hk]
      refine ⟨by simp [Fatalf, outcome], by simp [Fatalf, finalSys, readsOf], ⟨0, ?_⟩,
        fun _ => by simp [Fatalf, outcome]⟩
      simp [Fatalf, finalSys, writesOf, hf]

theorem mountLoop_append (w : World) (done rest : List SecretPath) :
    ∀ s : Sys, mountLoop w s (done ++ rest) =
      match mountLoop w s done with
      | .error h => .error h
      | .ok s' => mountLoop w s' rest := by
  induction done with
  | nil => intro s; simp [mountLoop]
  | cons entry done ih =>
    intro s
    cases hp : processMount w s entry with
    | error h => simp [mountLoop, hp]
    | ok s' => simp [mountLoop, hp, ih s']

/-! ## Lemmas on the stages before the mounts -/

theorem loadManifest_error (w : World) (s s' : Sys) (filename : String) (hl : Halt)
    (h : loadManifest w s filename = .error (hl, s')) :
    hl = Halt.exit1 ∧ readsOf s'.trace = readsOf s.trace := by
  unfold loadManifest at h
  simp only [] at h
  split at h
  · simp only [Fatalf, Except.error.injEq, Prod.mk.injEq] at h
    obtain ⟨hh, hs⟩ := h
    subst hs
    exact ⟨hh.symm, by simp [readsOf]⟩
  · split at h
    · simp only [Fatalf, Except.error.injEq, Prod.mk.injEq] at h
      obtain ⟨hh, hs⟩ := h
      subst hs
      exact ⟨hh.symm, by simp [readsOf]⟩
    · simp at h

theorem loadManifest_ok (w : World) (s s' : Sys) (filename : String) (app : Application)
    (h : loadManifest w s filename = .ok (s', app)) :
    readsOf s'.trace = readsOf s.trace := by
  unfold loadManifest at h
  simp only [] at h
  split at h
  · simp [Fatalf] at h
  · split at h
    · simp [Fatalf] at h
    · simp only [Except.ok.injEq, Prod.mk.injEq] at h
      obtain ⟨hs, -⟩ := h
      subst hs
      simp [readsOf]

theorem writeCompose_reads (w : World) (s : Sys) (app : Application) :
    readsOf (writeCompose w s app).trace = readsOf s.trace := by
  unfold writeCompose
  simp only [emit_trace, WriteFile_trace, MkdirAll_trace]
  simp [readsOf]

theorem connect_error (w : World) (s s' : Sys) (hl : Halt)
    (h : connect w s = .error (hl, s')) :
    (w.NewClient = none → hl = Halt.exit1) ∧ readsOf s'.trace = readsOf s.trace := by
  unfold connect at h
  simp only [] at h
  split at h
  · rename_i e hc
    simp only [Except.error.injEq, Prod.mk.injEq] at h
    obtain ⟨-, hs⟩ := h
    subst hs
    exact ⟨fun hn => by simp [hn] at hc, by simp [readsOf]⟩
  · split at h
    · simp only [Fatalf, Except.error.injEq, Prod.mk.injEq] at h
      obtain ⟨hh, hs⟩ := h
      subst hs
      exact ⟨fun _ => hh.symm, by simp [readsOf]⟩
    · simp at h

theorem connect_ok (w : World) (s s' : Sys) (h : connect w s = .ok s') :
    readsOf s'.trace = readsOf s.trace := by
  unfold connect at h
  simp only [] at h
  split at h
  · simp at h
  · split at h
    · simp [Fatalf] at h
    · simp only [Except.ok.injEq] at h
      subst h
      simp [readsOf]

/-- Without a token from the variable or the helper, token resolution is fatal. -/
theorem resolveToken_no_token (w : World) (s : Sys) (henv : w.Getenv "VAULT_TOKEN" = "")
    (hhelper : w.helperGet.1 = "") :
    ∃ s', resolveToken w s = .error (Halt.exit1, s') ∧ readsOf s'.trace = readsOf s.trace := by
  rcases hg : w.helperGet with ⟨tok, err⟩
  have ht : tok = "" := by simpa [hg] using hhelper
  subst ht
  refine ⟨(s.emit .helperGet).emit (.errorLine
    "Looks like you're not logged in to vault. Run \"vault login -method=oidc\" to login."
    []), ?_, ?_⟩
  · unfold resolveToken
    simp only [henv, hg]
    simp [Fatalf]
  · simp [readsOf]

/-! ## Sample runs -/

/-- An empty working directory. -/
def emptyFS : FS := ⟨[], []⟩

/-- An environment in which every call succeeds: the manifest decodes to `app`, the token
comes from `VAULT_TOKEN`, and every mount reads as `secret`. -/
def calmWorld (app : Application) (secret : Option Secret) : World :=
  { ReadFile := fun _ => .ok "manifest"
    Unmarshal := fun _ => .ok app
    Marshal := fun _ => ("yaml", none)
    mkdirFault := fun _ _ => none
    writeFault := fun _ _ => none
    NewClient := none
    RawRequest := none
    Getenv := fun _ => "s.token"
    helperGet := ("", none)
    LookupSelf := fun _ => (some ⟨[("display_name", .str "dev")]⟩, none)
    TokenPolicies := fun _ => .ok ["default"]
    Read := fun _ _ => (secret, none)
    rangeOrder := fun _ m => m }

/-- The mount of `sampleApp`. -/
def sampleMount : SecretPath := ⟨"secrets/db", "kv/preprod/fss/myapp/default"⟩

/-! ## Writing one secret -/

/-- C4: when the step for a key with string value `v` succeeds, the local directory of the mount
exists together with the directories above it, and the file named after the key in that
directory holds exactly `v`, whatever it held before. -/
theorem writeSecret_ok (w : World) (entry : SecretPath) (s s' : Sys) (k v : String)
    (h : writeSecret w entry s k v = .ok s') :
    s'.fs.isDir (destDirOf entry) = true ∧
      (∀ a ∈ ancestors (destDirOf entry), s'.fs.isDir a = true) ∧
      s'.fs.readFile (Join (destDirOf entry) k) = some v := by
  unfold writeSecret at h
  simp only [] at h
  split at h
  · simp [Fatalf] at h
  · rename_i s1 hmk
    split at h
    · simp [Fatalf] at h
    · rename_i s2 hwr
      have hs : s2 = s' := by simpa using h
      subst hs
      obtain ⟨hdir, hanc, -⟩ := MkdirAll_ok w _ s1 _ hmk
      obtain ⟨hfile, hdirs⟩ := WriteFile_ok w s1 s2 _ _ hwr
      have hkeep : ∀ d, s1.fs.isDir d = true → s2.fs.isDir d = true := by
        intro d hd
        simpa [FS.isDir, hdirs] using hd
      exact ⟨hkeep _ hdir, fun a ha => hkeep _ (hanc a ha), hfile⟩

theorem writeSecret_ok_witness :
    (finalSys (writeSecret (calmWorld sampleApp none) sampleMount ⟨emptyFS, []⟩
        "password" "hunter2")).fs.isDir "secrets/db" = true ∧
      (finalSys (writeSecret (calmWorld sampleApp none) sampleMount ⟨emptyFS, []⟩
        "password" "hunter2")).fs.readFile "secrets/db/password" = some "hunter2" :=
  have h := writeSecret_ok (calmWorld sampleApp none) sampleMount ⟨emptyFS, []⟩
    (finalSys (writeSecret (calmWorld sampleApp none) sampleMount ⟨emptyFS, []⟩
      "password" "hunter2")) "password" "hunter2" (by rfl)
  ⟨h.1, h.2.2⟩

/-! ## Secrets with values that are not strings -/

/-- A secret with a numeric value between two string values. -/
def mixedSecret : Secret :=
  ⟨[("user", .str "admin"), ("port", .number "5432"), ("password", .str "hunter2")]⟩

/-- The state in which the stages before the mounts hand over. -/
def handover : Run (Sys × Application) → Sys
  | .ok (s, _) => s
  | .error (_, s) => s

/-- When `getSecretData` returns for a mount and the payload it returns holds a value that is
not a string, the run ends in `Fatalf` (exit code 1), in whatever order the entries are
visited; no further secret is read, and the only files written for the mount belong to string
entries visited before the first entry that is not a string. -/
theorem Drag_nonstring_fatal (w : World) (hw : w.rangeFair) (fs : FS) (filename : String)
    (app : Application) (s0 s s1 : Sys) (done rest : List SecretPath) (entry : SecretPath)
    (secret : Option Secret) (data : List (String × Value))
    (hpre : beforeMounts w fs filename = .ok (s0, app))
    (hsplit : app.Spec.Vault.Mounts = done ++ entry :: rest)
    (hdone : mountLoop w s0 done = .ok s)
    (hread : readMount w s entry = (s1, (secret, none)))
    (hdata : getSecretData secret = .ok data)
    (hbad : ∃ k v, (k, v) ∈ data ∧ ∀ val, v ≠ Value.str val) :
    outcome (Drag w fs filename) = Outcome.exit1 ∧
      readsOf (finalSys (Drag w fs filename)).trace = readsOf s1.trace ∧
      ∃ n, writesOf (finalSys (Drag w fs filename)).trace =
        writesOf s1.trace ++
          (plannedWrites entry
            ((w.rangeOrder s1.now data).takeWhile fun kv => isStr kv.2)).take n := by
  have hpm : processMount w s entry = keyLoop w entry s1 (w.rangeOrder s1.now data) := by
    simp [processMount, hread, hdata]
  obtain ⟨-, hreads, hwrites, hfatal⟩ := keyLoop_trace w entry (w.rangeOrder s1.now data) s1
  have hex : outcome (keyLoop w entry s1 (w.rangeOrder s1.now data)) = Outcome.exit1 := by
    apply hfatal
    obtain ⟨k, v, hmem, hv⟩ := hbad
    refine ⟨(k, v), ((hw s1.now data).mem_iff).2 hmem, ?_⟩
    cases v with
    | str val => exact absurd rfl (hv val)
    | _ => rfl
  have hdrag : Drag w fs filename = keyLoop w entry s1 (w.rangeOrder s1.now data) := by
    unfold Drag
    rw [hpre]
    simp only [hsplit]
    rw [mountLoop_append, hdone]
    simp only [mountLoop, hpm]
    cases hk : keyLoop w entry s1 (w.rangeOrder s1.now data) with
    | error h => rfl
    | ok s' => simp [hk, outcome] at hex
  rw [hdrag]
  exact ⟨hex, hreads, hwrites⟩

theorem Drag_nonstring_fatal_example :
    outcome (Drag (calmWorld sampleApp (some mixedSecret)) emptyFS "nais.yaml") =
        Outcome.exit1 ∧
      writesOf (finalSys (Drag (calmWorld sampleApp (some mixedSecret)) emptyFS
        "nais.yaml")).trace = [("docker-compose.yml", "yaml"), ("secrets/db/user", "admin")] :=
  have h := Drag_nonstring_fatal (calmWorld sampleApp (some mixedSecret))
    (fun _ m => List.Perm.refl m) emptyFS "nais.yaml" sampleApp
    (handover (beforeMounts (calmWorld sampleApp (some mixedSecret)) emptyFS "nais.yaml"))
    (handover (beforeMounts (calmWorld sampleApp (some mixedSecret)) emptyFS "nais.yaml"))
    (readMount (calmWorld sampleApp (some mixedSecret))
      (handover (beforeMounts (calmWorld sampleApp (some mixedSecret)) emptyFS "nais.yaml"))
      sampleMount).1
    [] [] sampleMount (some mixedSecret) mixedSecret.Data
    (by rfl) (by rfl) (by rfl) (by rfl) (by rfl)
    ⟨"port", .number "5432", List.mem_cons_of_mem _ (List.mem_cons_self _ _),
      fun _ hv => Value.noConfusion hv⟩
  ⟨h.1, by rfl⟩

/-! ## Token resolution -/

/-- With `VAULT_TOKEN` unset or empty and an empty token from the helper (with or without an
error), a run performs no secret read and does not return normally; when the client was
constructed it ends in `Fatalf` (exit code 1). -/
theorem Drag_no_token (w : World) (fs : FS) (filename : String)
    (henv : w.Getenv "VAULT_TOKEN" = "") (hhelper : w.helperGet.1 = "") :
    readsOf (finalSys (Drag w fs filename)).trace = [] ∧
      outcome (Drag w fs filename) ≠ Outcome.exit0 ∧
      (w.NewClient = none → outcome (Drag w fs filename) = Outcome.exit1) := by
  unfold Drag beforeMounts
  cases hl : loadManifest w ⟨fs, []⟩ filename with
  | error h =>
    obtain ⟨hh, s'⟩ := h
    obtain ⟨rfl, hr⟩ := loadManifest_error w _ s' filename hh hl
    exact ⟨by simpa [finalSys, readsOf] using hr, by simp [outcome], fun _ => rfl⟩
  | ok p =>
    obtain ⟨s1, app⟩ := p
    have h1 : readsOf s1.trace = [] := by
      simpa [readsOf] using loadManifest_ok w _ s1 filename app hl
    have h2 : readsOf (writeCompose w s1 app).trace = [] := by
      rw [writeCompose_reads, h1]
    simp only []
    cases hc : connect w (writeCompose w s1 app) with
    | error h =>
      obtain ⟨hh, s'⟩ := h
      obtain ⟨hex, hr⟩ := connect_error w _ s' hh hc
      refine ⟨by simpa [finalSys, h2] using hr, ?_, fun hn => ?_⟩
      · cases hh <;> simp [outcome]
      · rw [hex hn]
        rfl
    | ok s2 =>
      have h3 : readsOf s2.trace = [] := by
        rw [connect_ok w _ s2 hc, h2]
      obtain ⟨s3, ht, hr⟩ := resolveToken_no_token w s2 henv hhelper
      simp only [ht]
      exact ⟨by simpa [finalSys, h3] using hr, by simp [outcome], fun _ => rfl⟩

/-- An environment without `VAULT_TOKEN` in which the helper fails with an empty token. -/
def loggedOutWorld : World :=
  { calmWorld sampleApp (some mixedSecret) with
    Getenv := fun _ => ""
    helperGet := ("", some "open /home/dev/.vault-token: permission denied") }

theorem Drag_no_token_example :
    outcome (Drag loggedOutWorld emptyFS "nais.yaml") = Outcome.exit1 ∧
      readsOf (finalSys (Drag loggedOutWorld emptyFS "nais.yaml")).trace = [] :=
  ⟨(Drag_no_token loggedOutWorld emptyFS "nais.yaml" rfl rfl).2.2 rfl,
    (Drag_no_token loggedOutWorld emptyFS "nais.yaml" rfl rfl).1⟩

/-- An environment without any token in which the client cannot be constructed, as with
`VAULT_MAX_RETRIES=abc`. -/
def noClientWorld : World :=
  { loggedOutWorld with
    NewClient := some "error encountered setting up default configuration" }

/-- C5 at its failing input: with `VAULT_TOKEN` unset, an empty helper token and a client
constructor that fails, the run never reaches the token check: it panics on the nil client
at the reachability probe instead of ending in `Fatalf`.  No secret is read. -/
theorem Drag_no_token_nil_client_panics :
    noClientWorld.Getenv "VAULT_TOKEN" = "" ∧ noClientWorld.helperGet.1 = "" ∧
      outcome (Drag noClientWorld emptyFS "nais.yaml") = Outcome.panic ∧
      readsOf (finalSys (Drag noClientWorld emptyFS "nais.yaml")).trace = [] ∧
      (finalSys (Drag noClientWorld emptyFS "nais.yaml")).trace =
        [.readFile "nais.yaml",
          .mkdirAll ".",
          .writeFile "docker-compose.yml" "yaml",
          .log "Generated %s" [.str "docker-compose.yml"],
          .log "Fetching secrets from Vault (%s)" [.str "https://vault.adeo.no"]] :=
  ⟨rfl, rfl, rfl, rfl, rfl⟩

/-! ## Payloads on which `getSecretData` does not return -/

/-- Apart from the wrapped shape, the raw payload is returned unless the payload has exactly
the two keys `metadata` and `data` and `reflect.TypeOf` meets a nil value: a nil under
`metadata`, or a mapping under `metadata` with a nil under `data`. -/
theorem getSecretData_raw (sec : Secret)
    (h : ∀ mv dv, mapGet sec.Data "metadata" = some mv → mapGet sec.Data "data" = some dv →
      sec.Data.length = 2 →
      mv ≠ Value.null ∧ ((∃ m, mv = Value.map m) → dv ≠ Value.null ∧ ∀ m, dv ≠ Value.map m)) :
    getSecretData (some sec) = .ok sec.Data := by
  unfold getSecretData
  simp only []
  cases hm : mapGet sec.Data "metadata" with
  | none => rfl
  | some mv =>
    cases hd : mapGet sec.Data "data" with
    | none => rfl
    | some dv =>
      by_cases hlen : sec.Data.length = 2
      · obtain ⟨h1, h2⟩ := h mv dv hm hd hlen
        cases mv with
        | null => exact absurd rfl h1
        | map m =>
          obtain ⟨h3, h4⟩ := h2 ⟨m, rfl⟩
          cases dv with
          | null => exact absurd rfl h3
          | map m' => exact absurd rfl (h4 m')
          | _ => simp [hlen, typeKind]
        | _ => simp [hlen, typeKind]
      · simp [hlen]

/-- A soft-deleted version of a versioned secret: metadata present, `data` is null. -/
def deletedSecret : Secret :=
  ⟨[("data", .null),
    ("metadata", .map [("deletion_time", .str "2019-05-02T10:12:01Z"),
      ("destroyed", .bool false), ("version", .number "1")])]⟩

/-- A plain secret whose two keys are `metadata`, holding null, and `data`. -/
def nullMetadataSecret : Secret :=
  ⟨[("metadata", .null), ("data", .map [("x", .str "1")])]⟩

/-- C2 at its failing inputs: with the two keys `metadata` and `data`, a null under `data`
next to a mapping under `metadata`, or a null under `metadata`, makes `getSecretData` panic
instead of returning the raw payload. -/
theorem getSecretData_null_panics :
    getSecretData (some deletedSecret) = .error Halt.panic ∧
      getSecretData (some nullMetadataSecret) = .error Halt.panic :=
  ⟨rfl, rfl⟩

/-- C3 at its failing input: the mount reads as a soft-deleted versioned secret.  The
payload does not have the wrapped shape (`data` is no mapping), so the payload to write is
the raw one, and both of its values are not strings; the run does not end in `Fatalf` but
panics inside `getSecretData`.  No file of the mount is written. -/
theorem Drag_null_payload_panics :
    (("data", Value.null) ∈ deletedSecret.Data ∧ isStr Value.null = false) ∧
      (∀ m, mapGet deletedSecret.Data "data" ≠ some (Value.map m)) ∧
      outcome (Drag (calmWorld sampleApp (some deletedSecret)) emptyFS "nais.yaml") =
        Outcome.panic ∧
      writesOf (finalSys (Drag (calmWorld sampleApp (some deletedSecret)) emptyFS
        "nais.yaml")).trace = [("docker-compose.yml", "yaml")] :=
  ⟨⟨List.mem_cons_self _ _, rfl⟩, fun _ h => Value.noConfusion (Option.some.inj h), rfl, rfl⟩

/-- C10 at its failing input: when the read of a mount answers with no secret and no error,
`getSecretData` dereferences the nil pointer and the run ends in a panic. -/
theorem Drag_absent_secret_panics :
    getSecretData none = .error Halt.panic ∧
      outcome (Drag (calmWorld sampleApp none) emptyFS "nais.yaml") = Outcome.panic :=
  ⟨rfl, rfl⟩

/-! ## Errors while writing the compose file -/

/-- An environment in which no file can be written (read-only working directory). -/
def readOnlyWorld : World :=
  { calmWorld bareApp none with
    writeFault := fun _ _ => some "read-only file system" }

/-- An environment in which serialising the descriptor fails. -/
def marshalErrorWorld : World :=
  { calmWorld bareApp none with
    Marshal := fun _ => ("", some "yaml: unsupported type") }

/-- C6 at its failing inputs: when writing `docker-compose.yml` fails, the run still reports
the file as generated, goes on to contact Vault and returns normally, with no
`docker-compose.yml` on disk; when serialising fails, the run likewise returns normally and
leaves an empty `docker-compose.yml`. -/
theorem Drag_compose_errors_ignored :
    Drag readOnlyWorld emptyFS "nais.yaml" =
      .ok ⟨emptyFS,
        [.readFile "nais.yaml",
          .mkdirAll ".",
          .writeFile "docker-compose.yml" "yaml",
          .log "Generated %s" [.str "docker-compose.yml"],
          .log "Fetching secrets from Vault (%s)" [.str "https://vault.adeo.no"],
          .rawRequest "GET" "https://vault.adeo.no",
          .lookupSelf "s.token",
          .log "Logged in as %s" [.str "dev"],
          .log "The Vault token has policies %s" [.str "default"]]⟩ ∧
      outcome (Drag readOnlyWorld emptyFS "nais.yaml") = Outcome.exit0 ∧
      (finalSys (Drag readOnlyWorld emptyFS "nais.yaml")).fs.readFile "docker-compose.yml" =
        none ∧
      outcome (Drag marshalErrorWorld emptyFS "nais.yaml") = Outcome.exit0 ∧
      (finalSys (Drag marshalErrorWorld emptyFS "nais.yaml")).fs.readFile
        "docker-compose.yml" = some "" :=
  ⟨rfl, rfl, rfl, rfl, rfl⟩

/-- The compose stage cannot halt a run: whatever the serialiser and the file system answer,
it hands on a state whose last event is the report that the file was generated. -/
theorem writeCompose_reports (w : World) (s : Sys) (app : Application) :
    (writeCompose w s app).trace =
      s.trace ++ [.mkdirAll ".", .writeFile "docker-compose.yml" (w.Marshal (buildSpec app)).1,
        .log "Generated %s" [.str "docker-compose.yml"]] := by
  have hj : Join "." "docker-compose.yml" = "docker-compose.yml" := by decide
  unfold writeCompose
  simp only [emit_trace, WriteFile_trace, MkdirAll_trace, hj]
  simp

end RuPaul
